import Mathlib

/-!
Verification of the FSK decoder pipeline (src/index.js).

The repository holds two concatenated JavaScript documents: the main
MQTT-publishing decoder (class SignalProcessor, FrameParser, processFile)
and a standalone near-duplicate extraction pipeline (readCU8File,
findSignalIntervals, decodeFSK, extractUnique64BitSequences).  Both are
embedded here.

Modelling conventions:
- a raw capture buffer is a list of byte values (List Nat, entries 0..255);
- normalized samples and power values are exact integers (the source
  stores them in Float32Arrays, where these small integer values are exact);
- phases and phase differences are real numbers; Math.atan2 is modelled by
  Complex.arg, whose range (-pi, pi] matches;
- a JavaScript string is a list of characters; join on an array of
  single-digit numbers maps each digit through Nat.digitChar;
- a JavaScript Set with later spread is a fold that appends an element
  only when it is not yet present, preserving first-insertion order;
- array reads are total with default 0 (every read proved in range where
  a claim needs it); an assignment past the end of a Uint8Array is a no-op
  and a fractional Uint8Array length is truncated, so readIq on an odd
  buffer behaves as floor division.
-/

/-! ### Configuration and protocol constants (src/index.js lines 6-18) -/

def POWER_THRESHOLD : Int := 5

def MIN_SIGNAL_LENGTH : Nat := 35000

def SAMPLES_PER_BIT : Nat := 635

def PREAMBLE_LENGTH : Nat := 24

def SYNC_WORD_LENGTH : Nat := 16

def DEVICE_ID_LENGTH : Nat := 20

def COMMAND_LENGTH : Nat := 3

def BATTERY_LENGTH : Nat := 1

def SYNC_WORD : List Char := "0010110111010100".toList

/-! ### Sample Loader

`SignalProcessor.readIq` (lines 38-48): `len = buffer.length / 2`; for an
odd byte count the Uint8Array constructor truncates the fractional length
and the one extra loop iteration writes past the end of the typed array,
which is a no-op, so the observable result is floor division.  The file
read itself is abstracted: the function takes the byte list directly. -/

def SignalProcessor.readIq (buffer : List Nat) : List Nat × List Nat :=
  let len := buffer.length / 2
  ((List.range len).map fun i => buffer.getD (2 * i) 0,
   (List.range len).map fun i => buffer.getD (2 * i + 1) 0)

/-- `readCU8File` (lines 259-268), textually the same de-interleaving loop
as `SignalProcessor.readIq`. -/
def readCU8File (buffer : List Nat) : List Nat × List Nat :=
  let n := buffer.length / 2
  ((List.range n).map fun i => buffer.getD (2 * i) 0,
   (List.range n).map fun i => buffer.getD (2 * i + 1) 0)

/-! ### Normalizer, Power Detector, Activity Mask -/

/-- `SignalProcessor.normalize` (lines 50-59): elementwise value - 128.
The byte values are at most 255, so the Float32 contents are these exact
small integers. -/
def SignalProcessor.normalize (p : List Nat × List Nat) : List Int × List Int :=
  (p.1.map fun v => (v : Int) - 128, p.2.map fun v => (v : Int) - 128)

/-- `normalizeIQ` (lines 270-278): same loop, I and Q passed separately. -/
def normalizeIQ (Iu Qu : List Nat) : List Int × List Int :=
  (Iu.map fun v => (v : Int) - 128, Qu.map fun v => (v : Int) - 128)

/-- `SignalProcessor.calculatePower` (lines 61-68): p[i] = I[i]^2 + Q[i]^2.
The source iterates over I.length; a read past the end of Q is modelled
with default 0, and every use in the pipeline has equal lengths. -/
def SignalProcessor.calculatePower (p : List Int × List Int) : List Int :=
  (List.range p.1.length).map fun i => p.1.getD i 0 * p.1.getD i 0 + p.2.getD i 0 * p.2.getD i 0

/-- `computePower` (lines 280-287): same loop, arrays passed separately. -/
def computePower (I Q : List Int) : List Int :=
  (List.range I.length).map fun i => I.getD i 0 * I.getD i 0 + Q.getD i 0 * Q.getD i 0

/-- `SignalProcessor.aboveThreshold` (lines 70-72): strict comparison
`v > threshold` mapped over the power array. -/
def SignalProcessor.aboveThreshold (power : List Int) (threshold : Int) : List Bool :=
  power.map fun v => threshold < v

/-- `detectSignal` (lines 289-291): `power.map(v => v > threshold)` stores
1.0/0.0 in a Float32Array; index tests use truthiness, so the boolean view
is the faithful observable model. -/
def detectSignal (power : List Int) (threshold : Int) : List Bool :=
  power.map fun v => threshold < v

/-! ### Interval Extractor

`SignalProcessor.findIntervals` (lines 74-88) carries a nullable `start`;
an active run [start, i-1] is emitted when sample i is inactive and
`i - start >= minLen`, and the still-open run at the end of the scan is
emitted when `flags.length - start >= minLen`. -/

def SignalProcessor.findIntervalsGo (minLen : Nat) :
    List Bool → Nat → Option Nat → List (Nat × Nat)
  | [], _, none => []
  | [], i, some s => if minLen ≤ i - s then [(s, i - 1)] else []
  | f :: rest, i, none =>
      if f then SignalProcessor.findIntervalsGo minLen rest (i + 1) (some i)
      else SignalProcessor.findIntervalsGo minLen rest (i + 1) none
  | f :: rest, i, some s =>
      if f then SignalProcessor.findIntervalsGo minLen rest (i + 1) (some s)
      else
        (if minLen ≤ i - s then [(s, i - 1)] else []) ++
          SignalProcessor.findIntervalsGo minLen rest (i + 1) none

def SignalProcessor.findIntervals (flags : List Bool) (minLen : Nat) : List (Nat × Nat) :=
  SignalProcessor.findIntervalsGo minLen flags 0 none

/-- `findSignalIntervals` (lines 293-314): the same scan written with a
boolean `inSig` flag and a `start` variable initialised to 0; a run is
emitted when `end - start + 1 >= minLen` with `end = i - 1` (resp.
`len - 1` for the run still open at the end). The two source tests inside
one loop iteration cannot both fire, which the nested `if` mirrors. -/
def findSignalIntervalsGo (minLen : Nat) :
    List Bool → Nat → Bool → Nat → List (Nat × Nat)
  | [], i, inSig, start =>
      if inSig then
        if minLen ≤ (i - 1) - start + 1 then [(start, i - 1)] else []
      else []
  | f :: rest, i, inSig, start =>
      if !inSig && f then findSignalIntervalsGo minLen rest (i + 1) true i
      else if inSig && !f then
        (if minLen ≤ (i - 1) - start + 1 then [(start, i - 1)] else []) ++
          findSignalIntervalsGo minLen rest (i + 1) false start
      else findSignalIntervalsGo minLen rest (i + 1) inSig start

def findSignalIntervals (isSig : List Bool) (minLen : Nat) : List (Nat × Nat) :=
  findSignalIntervalsGo minLen isSig 0 false 0

/-- The example activity mask from the specification,
[0,1,1,1,0,1,1,0,0,1,1,1,1]. -/
def exampleMask : List Bool :=
  [false, true, true, true, false, true, true, false, false, true, true, true, true]

/-! ### Phase Demodulator -/

/-- Math.atan2(y, x), modelled as the argument of the complex number
x + y*I, with range (-pi, pi]. -/
noncomputable def atan2 (y x : ℝ) : ℝ := Complex.arg ⟨x, y⟩

/-- `SignalProcessor.computePhases` (lines 90-97). -/
noncomputable def SignalProcessor.computePhases (p : List Int × List Int) : List ℝ :=
  (List.range p.1.length).map fun i => atan2 ((p.2.getD i 0 : ℝ)) ((p.1.getD i 0 : ℝ))

/-- `computePhases` (lines 316-323): same loop, arrays passed separately. -/
noncomputable def computePhases (I Q : List Int) : List ℝ :=
  (List.range I.length).map fun i => atan2 ((Q.getD i 0 : ℝ)) ((I.getD i 0 : ℝ))

/-- One step of the wrap correction (lines 103-105 / 330-332): subtract
2*pi when the raw difference exceeds pi, then add 2*pi when the result is
below -pi; both tests are strict. -/
noncomputable def wrapDiff (d : ℝ) : ℝ :=
  let d1 := if Real.pi < d then d - 2 * Real.pi else d
  if d1 < -Real.pi then d1 + 2 * Real.pi else d1

/-- `SignalProcessor.computeDiffs` (lines 99-109): diffs[0] stays at the
Float32Array zero initialisation; diffs[i] wraps phases[i] - phases[i-1]. -/
noncomputable def SignalProcessor.computeDiffs (phases : List ℝ) : List ℝ :=
  (List.range phases.length).map fun i =>
    if i = 0 then 0 else wrapDiff (phases.getD i 0 - phases.getD (i - 1) 0)

/-- `computePhaseDiff` (lines 325-336): identical except dp[0] = 0 is
written explicitly. -/
noncomputable def computePhaseDiff (phases : List ℝ) : List ℝ :=
  (List.range phases.length).map fun i =>
    if i = 0 then 0 else wrapDiff (phases.getD i 0 - phases.getD (i - 1) 0)

/-! ### Bit Slicer -/

/-- `SignalProcessor.decodeBits` (lines 111-124): integrate the phase
differences over each width-`samplesPerBit` symbol period of the interval
and emit a character, sum > 0 giving one. -/
noncomputable def SignalProcessor.decodeBits (diffs : List ℝ) (iv : Nat × Nat)
    (samplesPerBit : Nat) : List Char :=
  let total := iv.2 - iv.1 + 1
  let symbols := total / samplesPerBit
  (List.range symbols).map fun s =>
    if 0 < ((List.range samplesPerBit).map fun k =>
        diffs.getD (iv.1 + s * samplesPerBit + k) 0).sum
    then '1' else '0'

/-- `decodeFSK` (lines 338-351): the same loop pushing the numbers 1 and 0
instead of characters; `end` is a reserved word in Lean and is renamed
`endIdx`. -/
noncomputable def decodeFSK (dphi : List ℝ) (start endIdx : Nat)
    (samplesPerBit : Nat) : List Nat :=
  let total := endIdx - start + 1
  let nSymbols := total / samplesPerBit
  (List.range nSymbols).map fun s =>
    if 0 < ((List.range samplesPerBit).map fun k =>
        dphi.getD (start + s * samplesPerBit + k) 0).sum
    then 1 else 0

/-- Option-indexed variant of the symbol integration: every read
`dphi[offset + k]` goes through checked indexing and any out-of-bounds
access poisons the result.  Used to state that the Bit Slicer reads only
in-range indices. -/
noncomputable def symbolSumChecked (dphi : List ℝ) (offset : Nat) : Nat → Option ℝ
  | 0 => some 0
  | k + 1 =>
      match symbolSumChecked dphi offset k, dphi[offset + k]? with
      | some acc, some d => some (acc + d)
      | _, _ => none

/-- Option-indexed variant of the symbol loop of the Bit Slicer. -/
noncomputable def bitsCheckedGo (dphi : List ℝ) (start w : Nat) : Nat → Option (List Char)
  | 0 => some []
  | s + 1 =>
      match bitsCheckedGo dphi start w s, symbolSumChecked dphi (start + s * w) w with
      | some bs, some acc => some (bs ++ [if 0 < acc then '1' else '0'])
      | _, _ => none

/-- `SignalProcessor.decodeBits` with checked indexing: `none` exactly when
some read of the symbol loop would fall outside the array. -/
noncomputable def decodeBitsChecked (dphi : List ℝ) (iv : Nat × Nat) (w : Nat) :
    Option (List Char) :=
  bitsCheckedGo dphi iv.1 w ((iv.2 - iv.1 + 1) / w)

/-! ### Extraction pipelines -/

/-- `SignalProcessor.extractSequences` (lines 126-142).  The Set plus
spread is modelled by a fold that appends a bit string only when it is not
yet present, preserving first-insertion order; a bit string is the list of
characters of the joined string. -/
noncomputable def SignalProcessor.extractSequences (buffer : List Nat) (threshold : Int)
    (minLen samplesPerBit : Nat) : List (List Char) :=
  let raw := SignalProcessor.readIq buffer
  let norm := SignalProcessor.normalize raw
  let power := SignalProcessor.calculatePower norm
  let flags := SignalProcessor.aboveThreshold power threshold
  let intervals := SignalProcessor.findIntervals flags minLen
  if intervals = [] then []
  else
    let phases := SignalProcessor.computePhases norm
    let diffs := SignalProcessor.computeDiffs phases
    let validLen := PREAMBLE_LENGTH + SYNC_WORD_LENGTH + DEVICE_ID_LENGTH +
      COMMAND_LENGTH + BATTERY_LENGTH
    intervals.foldl
      (fun acc iv =>
        let bits := SignalProcessor.decodeBits diffs iv samplesPerBit
        if bits.length = validLen then
          if bits ∈ acc then acc else acc ++ [bits]
        else acc)
      []

/-- `extractUnique64BitSequences` (lines 353-370): the standalone variant;
`join` on the array of digits 0/1 maps each through Nat.digitChar, and the
length filter is the literal 64. -/
noncomputable def extractUnique64BitSequences (buffer : List Nat) (powerThreshold : Int)
    (minSignalLength samplesPerBit : Nat) : List (List Char) :=
  let raw := readCU8File buffer
  let norm := normalizeIQ raw.1 raw.2
  let power := computePower norm.1 norm.2
  let isSignal := detectSignal power powerThreshold
  let intervals := findSignalIntervals isSignal minSignalLength
  if intervals = [] then []
  else
    let phases := computePhases norm.1 norm.2
    let dphi := computePhaseDiff phases
    intervals.foldl
      (fun acc iv =>
        let bits := (decodeFSK dphi iv.1 iv.2 samplesPerBit).map Nat.digitChar
        if bits.length = 64 then
          if bits ∈ acc then acc else acc ++ [bits]
        else acc)
      []

/-! ### Frame Parser -/

/-- The parsed frame record (lines 154-159). -/
structure Frame where
  sync : List Char
  deviceId : List Char
  command : String
  battery : String
deriving DecidableEq, Repr

/-- The `COMMANDS` lookup object (line 17): only the keys 001 and 010 are
present; any other key misses. -/
def COMMANDS (b : List Char) : Option String :=
  if b = ['0', '0', '1'] then some "OPEN"
  else if b = ['0', '1', '0'] then some "CLOSE"
  else none

/-- The `BATTERY_STATUS` lookup object (line 18). -/
def BATTERY_STATUS (b : List Char) : Option String :=
  if b = ['1'] then some "OK"
  else if b = ['0'] then some "LOW"
  else none

/-- JavaScript `s.slice(a, b)` on a string, as characters. -/
def jsSlice (s : List Char) (a b : Nat) : List Char := (s.drop a).take (b - a)

/-- `padStart(n, c)`: left-pad to length n (no-op when already long
enough). -/
def padStart (l : List Char) (n : Nat) (c : Char) : List Char :=
  List.replicate (n - l.length) c ++ l

/-- `parseInt(bits, 2)` on a string of 0/1 characters. -/
def bitsToNat (l : List Char) : Nat :=
  l.foldl (fun acc c => 2 * acc + (if c = '1' then 1 else 0)) 0

/-- `FrameParser.binToHex` (lines 161-167): left-pad to a multiple of 4,
then convert each 4-bit group to one lowercase hex digit. -/
def FrameParser.binToHex (b : List Char) : List Char :=
  let p := padStart b (((b.length + 3) / 4) * 4) '0'
  (List.range (p.length / 4)).map fun i => Nat.digitChar (bitsToNat ((p.drop (4 * i)).take 4))

/-- `FrameParser.parse` (lines 146-160). -/
def FrameParser.parse (frame : List Char) : Frame :=
  let sync := jsSlice frame PREAMBLE_LENGTH (PREAMBLE_LENGTH + SYNC_WORD_LENGTH)
  let idStart := PREAMBLE_LENGTH + SYNC_WORD_LENGTH
  let deviceId := '0' :: 'x' :: FrameParser.binToHex (jsSlice frame idStart (idStart + DEVICE_ID_LENGTH))
  let cmdStart := idStart + DEVICE_ID_LENGTH
  let commandBits := jsSlice frame cmdStart (cmdStart + COMMAND_LENGTH)
  let batteryBit := jsSlice frame (cmdStart + COMMAND_LENGTH) (cmdStart + COMMAND_LENGTH + BATTERY_LENGTH)
  { sync := sync
    deviceId := deviceId
    command := (COMMANDS commandBits).getD "UNKNOWN"
    battery := (BATTERY_STATUS batteryBit).getD "UNKNOWN" }

/-- The pure frame-selection core of `processFile` (lines 229-247): each
extracted bit string is parsed and a frame is acted upon only when its
sync field equals the fixed sync word; the MQTT publication itself is
outside the model, so the function returns the list of frames acted
upon. -/
def processFileFrames (frames : List (List Char)) : List Frame :=
  (frames.map FrameParser.parse).filter fun fr => fr.sync = SYNC_WORD

/-! ### Theorems -/

theorem readCU8File_eq_readIq : readCU8File = SignalProcessor.readIq := rfl

lemma readIq_fst_length (buffer : List Nat) :
    (SignalProcessor.readIq buffer).1.length = buffer.length / 2 := by
  simp [SignalProcessor.readIq]

lemma readIq_snd_length (buffer : List Nat) :
    (SignalProcessor.readIq buffer).2.length = buffer.length / 2 := by
  simp [SignalProcessor.readIq]

lemma readIq_fst_getD (buffer : List Nat) (i : Nat) (hi : i < buffer.length / 2) :
    (SignalProcessor.readIq buffer).1.getD i 0 = buffer.getD (2 * i) 0 := by
  simp [SignalProcessor.readIq, List.getD_eq_getElem?_getD, List.getElem?_map,
    List.getElem?_range hi]

lemma readIq_snd_getD (buffer : List Nat) (i : Nat) (hi : i < buffer.length / 2) :
    (SignalProcessor.readIq buffer).2.getD i 0 = buffer.getD (2 * i + 1) 0 := by
  simp [SignalProcessor.readIq, List.getD_eq_getElem?_getD, List.getElem?_map,
    List.getElem?_range hi]

/-- C1: for a raw capture buffer with an odd number of bytes the loader
drops the trailing dangling byte: I and Q both have length
floor(bufferBytes / 2), their entries are the even- and odd-indexed bytes,
and the computation is total (no error). -/
theorem C1_readIq_odd_truncates (buffer : List Nat) (h : buffer.length % 2 = 1) :
    (SignalProcessor.readIq buffer).1.length = buffer.length / 2 ∧
    (SignalProcessor.readIq buffer).2.length = buffer.length / 2 ∧
    2 * (buffer.length / 2) + 1 = buffer.length ∧
    ∀ i, i < buffer.length / 2 →
      (SignalProcessor.readIq buffer).1.getD i 0 = buffer.getD (2 * i) 0 ∧
      (SignalProcessor.readIq buffer).2.getD i 0 = buffer.getD (2 * i + 1) 0 := by
  refine ⟨readIq_fst_length buffer, readIq_snd_length buffer, by omega, ?_⟩
  intro i hi
  exact ⟨readIq_fst_getD buffer i hi, readIq_snd_getD buffer i hi⟩

theorem C1_witness :
    [7, 8, 9].length % 2 = 1 ∧
    (SignalProcessor.readIq [7, 8, 9]).1.length = 1 ∧
    (SignalProcessor.readIq [7, 8, 9]).2.length = 1 ∧
    (SignalProcessor.readIq [7, 8, 9]).1.getD 0 0 = 7 ∧
    (SignalProcessor.readIq [7, 8, 9]).2.getD 0 0 = 8 := by
  have h := C1_readIq_odd_truncates [7, 8, 9] (by decide)
  refine ⟨by decide, h.1, h.2.1, ?_, ?_⟩
  · exact ((h.2.2.2 0 (by decide)).1).trans (by decide)
  · exact ((h.2.2.2 0 (by decide)).2).trans (by decide)

/-- C7: for a buffer of even length 2n the loader yields I and Q of
length n with I[i] = buffer[2i] and Q[i] = buffer[2i+1]. -/
theorem C7_readIq_even (buffer : List Nat) (n : Nat) (h : buffer.length = 2 * n) :
    (SignalProcessor.readIq buffer).1.length = n ∧
    (SignalProcessor.readIq buffer).2.length = n ∧
    ∀ i, i < n →
      (SignalProcessor.readIq buffer).1.getD i 0 = buffer.getD (2 * i) 0 ∧
      (SignalProcessor.readIq buffer).2.getD i 0 = buffer.getD (2 * i + 1) 0 := by
  have hn : buffer.length / 2 = n := by omega
  refine ⟨by rw [readIq_fst_length, hn], by rw [readIq_snd_length, hn], ?_⟩
  intro i hi
  rw [← hn] at hi
  exact ⟨readIq_fst_getD buffer i hi, readIq_snd_getD buffer i hi⟩

lemma drop_eq_cons_getD {flags : List Bool} {i : Nat} {f : Bool} {rest : List Bool}
    (h : flags.drop i = f :: rest) : flags.getD i false = f := by
  have h0 : flags[i]? = some f := by
    have := List.getElem?_drop flags i 0
    rw [h] at this
    simpa using this.symm
  simp [List.getD_eq_getElem?_getD, h0]

lemma drop_succ_of_drop_cons {α : Type} {flags : List α} {i : Nat} {f : α} {rest : List α}
    (h : flags.drop i = f :: rest) : flags.drop (i + 1) = rest := by
  have := List.drop_drop 1 i flags
  rw [h] at this
  simpa using this.symm

/-- Invariant of the interval scan: intervals already closed are to the
left of the cursor, well formed, long enough, covered by active samples,
and pairwise ordered; `st = some s` records an open run starting at `s`
that is active on [s, i). -/
lemma findIntervalsGo_spec (minLen : Nat) (flags : List Bool) :
    ∀ (l : List Bool) (i : Nat) (st : Option Nat),
      flags.drop i = l → i + l.length = flags.length →
      (∀ s, st = some s → s < i ∧ ∀ j, s ≤ j → j < i → flags.getD j false = true) →
      (∀ p ∈ SignalProcessor.findIntervalsGo minLen l i st,
          st.getD i ≤ p.1 ∧ p.1 ≤ p.2 ∧ p.2 < flags.length ∧
          minLen ≤ p.2 - p.1 + 1 ∧
          ∀ j, p.1 ≤ j → j ≤ p.2 → flags.getD j false = true) ∧
      List.Pairwise (fun p q : Nat × Nat => p.2 < q.1)
        (SignalProcessor.findIntervalsGo minLen l i st) := by
  intro l
  induction l with
  | nil =>
    intro i st h1 h2 h3
    match st with
    | none => simp [SignalProcessor.findIntervalsGo]
    | some s =>
      obtain ⟨hsi, hrun⟩ := h3 s rfl
      have hi : i = flags.length := by simpa using h2
      constructor
      · intro p hp
        rw [SignalProcessor.findIntervalsGo] at hp
        split at hp
        · rename_i hguard
          simp only [List.mem_singleton] at hp
          subst hp
          refine ⟨le_refl _, by omega, by omega, by omega, ?_⟩
          intro j hj1 hj2
          exact hrun j hj1 (by omega)
        · simp at hp
      · rw [SignalProcessor.findIntervalsGo]
        split <;> simp
  | cons f rest ih =>
    intro i st h1 h2 h3
    have hrest : flags.drop (i + 1) = rest := drop_succ_of_drop_cons h1
    have hfi : flags.getD i false = f := drop_eq_cons_getD h1
    have h2r : (i + 1) + rest.length = flags.length := by
      simp only [List.length_cons] at h2; omega
    have hilen : i < flags.length := by
      simp only [List.length_cons] at h2; omega
    match st with
    | none =>
      cases f with
      | true =>
        have h3r : ∀ s, (some i : Option Nat) = some s →
            s < i + 1 ∧ ∀ j, s ≤ j → j < i + 1 → flags.getD j false = true := by
          intro s hs
          injection hs with hs
          subst hs
          exact ⟨by omega, fun j hj1 hj2 => by
            have : j = i := by omega
            subst this; exact hfi⟩
        have := ih (i + 1) (some i) hrest h2r h3r
        rw [SignalProcessor.findIntervalsGo]
        simp only [if_true]
        refine ⟨fun p hp => ?_, this.2⟩
        have hres := this.1 p hp
        exact ⟨by simpa using (le_trans (by simp) hres.1), hres.2⟩
      | false =>
        have := ih (i + 1) none hrest h2r (by simp)
        rw [SignalProcessor.findIntervalsGo]
        simp only [Bool.false_eq_true, if_false]
        refine ⟨fun p hp => ?_, this.2⟩
        have hres := this.1 p hp
        exact ⟨by simpa using (le_trans (by omega : i ≤ i + 1) (by simpa using hres.1)), hres.2⟩
    | some s =>
      obtain ⟨hsi, hrun⟩ := h3 s rfl
      cases f with
      | true =>
        have h3r : ∀ t, (some s : Option Nat) = some t →
            t < i + 1 ∧ ∀ j, t ≤ j → j < i + 1 → flags.getD j false = true := by
          intro t ht
          injection ht with ht
          subst ht
          refine ⟨by omega, fun j hj1 hj2 => ?_⟩
          rcases Nat.lt_or_ge j i with hj | hj
          · exact hrun j hj1 hj
          · have : j = i := by omega
            subst this; exact hfi
        have := ih (i + 1) (some s) hrest h2r h3r
        rw [SignalProcessor.findIntervalsGo]
        simp only [if_true]
        exact ⟨fun p hp => (this.1 p hp), this.2⟩
      | false =>
        have hnone := ih (i + 1) none hrest h2r (by simp)
        rw [SignalProcessor.findIntervalsGo]
        simp only [Bool.false_eq_true, if_false]
        have htail : ∀ p ∈ SignalProcessor.findIntervalsGo minLen rest (i + 1) none,
            i + 1 ≤ p.1 ∧ p.1 ≤ p.2 ∧ p.2 < flags.length ∧ minLen ≤ p.2 - p.1 + 1 ∧
            ∀ j, p.1 ≤ j → j ≤ p.2 → flags.getD j false = true := by
          intro p hp
          have hres := hnone.1 p hp
          exact ⟨by simpa using hres.1, hres.2⟩
        constructor
        · intro p hp
          rcases List.mem_append.mp hp with hmem | hmem
          · split at hmem
            · rename_i hguard
              simp only [List.mem_singleton] at hmem
              subst hmem
              refine ⟨le_refl _, by omega, by omega, by omega, ?_⟩
              intro j hj1 hj2
              exact hrun j hj1 (by omega)
            · simp at hmem
          · have hres := htail p hmem
            obtain ⟨hres1, hres2⟩ := hres
            refine ⟨?_, hres2⟩
            simp only [Option.getD_some]
            omega
        · rw [List.pairwise_append]
          refine ⟨?_, hnone.2, ?_⟩
          · split <;> simp
          · intro a ha b hb
            have hbs := htail b hb
            split at ha
            · simp only [List.mem_singleton] at ha
              subst ha
              simp only
              omega
            · simp at ha

/-- The wrap correction on a raw difference of magnitude below 2*pi adds
an integer multiple k of 2*pi with |k| <= 1 and lands in the closed
interval [-pi, pi]. -/
lemma wrapDiff_spec (d : ℝ) (hd1 : -(2 * Real.pi) < d) (hd2 : d < 2 * Real.pi) :
    (∃ k : ℤ, |k| ≤ 1 ∧ wrapDiff d = d + 2 * Real.pi * k) ∧
    wrapDiff d ∈ Set.Icc (-Real.pi) Real.pi := by
  have hπ := Real.pi_pos
  simp only [wrapDiff]
  by_cases h1 : Real.pi < d
  · rw [if_pos h1]
    have hn : ¬ (d - 2 * Real.pi < -Real.pi) := by linarith
    rw [if_neg hn]
    exact ⟨⟨-1, by norm_num, by push_cast; ring⟩, by constructor <;> linarith⟩
  · rw [if_neg h1]
    by_cases h2 : d < -Real.pi
    · rw [if_pos h2]
      exact ⟨⟨1, by norm_num, by push_cast; ring⟩, by constructor <;> linarith⟩
    · rw [if_neg h2]
      exact ⟨⟨0, by norm_num, by push_cast; ring⟩, by constructor <;> linarith⟩

/-- C2 counterexample: the phases pi and 0 both lie in the atan2 range
(-pi, pi], yet the difference output at index 1 is exactly -pi, which is
not in the half-open range (-pi, pi] claimed by the specification. -/
theorem C2_counterexample :
    (∀ p ∈ [Real.pi, (0 : ℝ)], p ∈ Set.Ioc (-Real.pi) Real.pi) ∧
    SignalProcessor.computeDiffs [Real.pi, 0] = [0, -Real.pi] ∧
    -Real.pi ∉ Set.Ioc (-Real.pi) Real.pi := by
  have hπ := Real.pi_pos
  refine ⟨?_, ?_, ?_⟩
  · intro p hp
    simp only [List.mem_cons, List.not_mem_nil, or_false] at hp
    rcases hp with rfl | rfl
    · exact ⟨by linarith, le_refl _⟩
    · exact ⟨by linarith, by linarith⟩
  · have hw : wrapDiff (-Real.pi) = -Real.pi := by
      simp only [wrapDiff]
      rw [if_neg (by linarith : ¬ Real.pi < -Real.pi)]
      rw [if_neg (by linarith : ¬ -Real.pi < -Real.pi)]
    simp [SignalProcessor.computeDiffs, List.range_succ, List.getD, zero_sub, hw]
  · simp [Set.mem_Ioc]

/-- C2 amended: diff[0] = 0; for i >= 1 the output is the raw difference
phase[i] - phase[i-1] adjusted by at most one step of 2*pi, and every
diff[i] lies in the CLOSED interval [-pi, pi] (the endpoint -pi is
attained, so the half-open range of the original claim fails). -/
theorem C2_computeDiffs_amended (phases : List ℝ)
    (h : ∀ p ∈ phases, p ∈ Set.Ioc (-Real.pi) Real.pi) :
    (SignalProcessor.computeDiffs phases).length = phases.length ∧
    (SignalProcessor.computeDiffs phases).getD 0 0 = 0 ∧
    ∀ i, 1 ≤ i → i < phases.length →
      (∃ k : ℤ, |k| ≤ 1 ∧
        (SignalProcessor.computeDiffs phases).getD i 0 =
          phases.getD i 0 - phases.getD (i - 1) 0 + 2 * Real.pi * k) ∧
      (SignalProcessor.computeDiffs phases).getD i 0 ∈ Set.Icc (-Real.pi) Real.pi := by
  have hπ := Real.pi_pos
  have hlen : (SignalProcessor.computeDiffs phases).length = phases.length := by
    simp [SignalProcessor.computeDiffs]
  have hget : ∀ i, i < phases.length →
      (SignalProcessor.computeDiffs phases).getD i 0 =
        if i = 0 then 0 else wrapDiff (phases.getD i 0 - phases.getD (i - 1) 0) := by
    intro i hi
    simp [SignalProcessor.computeDiffs, List.getD_eq_getElem?_getD, List.getElem?_map,
      List.getElem?_range hi]
  refine ⟨hlen, ?_, ?_⟩
  · rcases Nat.eq_zero_or_pos phases.length with h0 | h0
    · have : SignalProcessor.computeDiffs phases = [] := by
        have := hlen; rw [h0] at this; exact List.length_eq_zero.mp this
      simp [this]
    · rw [hget 0 h0]
      simp
  · intro i hi1 hi2
    have hmem : ∀ j, j < phases.length → phases.getD j 0 ∈ Set.Ioc (-Real.pi) Real.pi := by
      intro j hj
      have : phases.getD j 0 = phases[j] := by
        simp [List.getD_eq_getElem?_getD, List.getElem?_eq_getElem hj]
      rw [this]
      exact h _ (phases.getElem_mem hj)
    have hpi := hmem i hi2
    have hpim := hmem (i - 1) (by omega)
    have hd1 : -(2 * Real.pi) < phases.getD i 0 - phases.getD (i - 1) 0 := by
      obtain ⟨ha, hb⟩ := hpi; obtain ⟨hc, hdq⟩ := hpim; linarith
    have hd2 : phases.getD i 0 - phases.getD (i - 1) 0 < 2 * Real.pi := by
      obtain ⟨ha, hb⟩ := hpi; obtain ⟨hc, hdq⟩ := hpim; linarith
    have hw := wrapDiff_spec _ hd1 hd2
    rw [hget i hi2, if_neg (by omega : ¬ i = 0)]
    exact hw

theorem C2_witness :
    (SignalProcessor.computeDiffs [(0 : ℝ), Real.pi]).length = 2 ∧
    (SignalProcessor.computeDiffs [(0 : ℝ), Real.pi]).getD 0 0 = 0 ∧
    (∃ k : ℤ, |k| ≤ 1 ∧
      (SignalProcessor.computeDiffs [(0 : ℝ), Real.pi]).getD 1 0 =
        Real.pi - 0 + 2 * Real.pi * k) ∧
    (SignalProcessor.computeDiffs [(0 : ℝ), Real.pi]).getD 1 0 ∈
      Set.Icc (-Real.pi) Real.pi := by
  have hπ := Real.pi_pos
  have h := C2_computeDiffs_amended [(0 : ℝ), Real.pi] (by
    intro p hp
    simp only [List.mem_cons, List.not_mem_nil, or_false] at hp
    rcases hp with rfl | rfl
    · exact ⟨by linarith, by linarith⟩
    · exact ⟨by linarith, le_refl _⟩)
  have h2 := h.2.2 1 (by norm_num) (by simp)
  refine ⟨by simpa using h.1, h.2.1, ?_, h2.2⟩
  obtain ⟨k, hk, hEq⟩ := h2.1
  refine ⟨k, hk, ?_⟩
  rw [hEq]
  norm_num [List.getD]

/-- C5: for every boolean mask and minimum length the Interval Extractor
returns intervals that are pairwise ordered and disjoint (previous end
strictly before next start), well formed, in range, with the mask true on
every sample of the inclusive range and length at least the minimum; and
on the specification example mask with minLen 3 it returns exactly
[(1,3), (9,12)]. -/
theorem C5_findIntervals_sound (flags : List Bool) (minLen : Nat) :
    (List.Pairwise (fun p q : Nat × Nat => p.2 < q.1)
      (SignalProcessor.findIntervals flags minLen)) ∧
    (∀ p ∈ SignalProcessor.findIntervals flags minLen,
      p.1 ≤ p.2 ∧ p.2 < flags.length ∧ minLen ≤ p.2 - p.1 + 1 ∧
      ∀ j, p.1 ≤ j → j ≤ p.2 → flags.getD j false = true) ∧
    SignalProcessor.findIntervals exampleMask 3 = [(1, 3), (9, 12)] := by
  have h := findIntervalsGo_spec minLen flags flags 0 none rfl (by simp) (by simp)
  exact ⟨h.2, fun p hp => (h.1 p hp).2, by decide⟩

theorem C5_witness :
    ((1, 3) ∈ SignalProcessor.findIntervals exampleMask 3 ∧
      (1 : Nat) ≤ 3 ∧ (3 : Nat) < exampleMask.length ∧ (3 : Nat) ≤ 3 - 1 + 1 ∧
      exampleMask.getD 2 false = true) ∧
    SignalProcessor.findIntervals exampleMask 3 = [(1, 3), (9, 12)] := by
  have h := C5_findIntervals_sound exampleMask 3
  have hmem : (1, 3) ∈ SignalProcessor.findIntervals exampleMask 3 := by
    rw [h.2.2]; simp
  have hp := h.2.1 (1, 3) hmem
  exact ⟨⟨hmem, hp.1, hp.2.1, hp.2.2.1, hp.2.2.2 2 (by omega) (by omega)⟩, h.2.2⟩

/-- Integrating with default-0 reads over one symbol period equals the sum
of the corresponding contiguous slice of the array. -/
lemma sum_range_getD (l : List ℝ) (o : Nat) :
    ∀ w, ((List.range w).map fun k => l.getD (o + k) 0).sum = ((l.drop o).take w).sum := by
  intro w
  induction w with
  | zero => simp
  | succ n ihw =>
    rw [List.range_succ, List.map_append, List.sum_append, ihw, List.take_succ]
    have hdrop : (l.drop o)[n]? = l[o + n]? := List.getElem?_drop l o n
    cases h : l[o + n]? with
    | none => simp [List.getD_eq_getElem?_getD, h, hdrop]
    | some a => simp [List.getD_eq_getElem?_getD, h, hdrop]

/-- C6: the Bit Slicer emits exactly floor(intervalLength / w) bits,
discarding the trailing remainder, and bit s is one exactly when the sum
of the w phase differences of symbol period s is strictly positive (a sum
of zero gives zero).  Determinism is immediate: `decodeBits` is a
function of (diffs, interval, samplesPerBit). -/
theorem C6_decodeBits_symbols (diffs : List ℝ) (iv : Nat × Nat) (w : Nat) (hw : 1 ≤ w) :
    (SignalProcessor.decodeBits diffs iv w).length = (iv.2 - iv.1 + 1) / w ∧
    ∀ s, s < (iv.2 - iv.1 + 1) / w →
      (SignalProcessor.decodeBits diffs iv w).getD s '?' =
        if 0 < ((diffs.drop (iv.1 + s * w)).take w).sum then '1' else '0' := by
  constructor
  · simp [SignalProcessor.decodeBits]
  · intro s hs
    have hrw := sum_range_getD diffs (iv.1 + s * w) w
    simp only [List.getD_eq_getElem?_getD] at hrw
    simp only [SignalProcessor.decodeBits, List.getD_eq_getElem?_getD, List.getElem?_map,
      List.getElem?_range hs, Option.map_some', Option.getD_some]
    rw [hrw]

theorem C6_witness :
    (SignalProcessor.decodeBits [(1 : ℝ), 1, -1, -1] (0, 3) 2).length = 2 ∧
    (SignalProcessor.decodeBits [(1 : ℝ), 1, -1, -1] (0, 3) 2).getD 0 '?' = '1' ∧
    (SignalProcessor.decodeBits [(1 : ℝ), 1, -1, -1] (0, 3) 2).getD 1 '?' = '0' := by
  have h := C6_decodeBits_symbols [(1 : ℝ), 1, -1, -1] (0, 3) 2 (by norm_num)
  refine ⟨by simpa using h.1, ?_, ?_⟩
  · rw [h.2 0 (by norm_num)]
    norm_num
  · rw [h.2 1 (by norm_num)]
    norm_num

lemma symbolSumChecked_eq (dphi : List ℝ) (o : Nat) :
    ∀ w, (∀ k, k < w → o + k < dphi.length) →
      symbolSumChecked dphi o w =
        some (((List.range w).map fun k => dphi.getD (o + k) 0).sum) := by
  intro w
  induction w with
  | zero => intro h; simp [symbolSumChecked]
  | succ n ihw =>
    intro h
    have hk : o + n < dphi.length := h n (by omega)
    have ih2 := ihw (fun k hkk => h k (by omega))
    simp only [symbolSumChecked, ih2, List.getElem?_eq_getElem hk]
    simp [List.range_succ, List.getD_eq_getElem?_getD, List.getElem?_eq_getElem hk]

lemma bitsCheckedGo_eq (dphi : List ℝ) (a w : Nat) :
    ∀ n, (∀ s, s < n → ∀ k, k < w → a + s * w + k < dphi.length) →
      bitsCheckedGo dphi a w n =
        some ((List.range n).map fun s =>
          if 0 < ((List.range w).map fun k => dphi.getD (a + s * w + k) 0).sum
          then '1' else '0') := by
  intro n
  induction n with
  | zero => intro h; simp [bitsCheckedGo]
  | succ m ihn =>
    intro h
    have ihm := ihn (fun s hs k hk => h s (by omega) k hk)
    have hsum := symbolSumChecked_eq dphi (a + m * w) w (fun k hk => h m (by omega) k hk)
    simp only [bitsCheckedGo, ihm, hsum]
    simp [List.range_succ]

/-- C10: inside an interval [start, end] with end below the array length
and width w >= 1, every index the Bit Slicer reads is at most end, and
the Option-indexed variant agrees with the total one: the out-of-bounds
branch is unreachable. -/
theorem C10_decodeBits_inBounds (dphi : List ℝ) (iv : Nat × Nat) (w : Nat)
    (hw : 1 ≤ w) (hse : iv.1 ≤ iv.2) (hend : iv.2 < dphi.length) :
    (∀ s, s < (iv.2 - iv.1 + 1) / w → ∀ k, k < w → iv.1 + s * w + k ≤ iv.2) ∧
    decodeBitsChecked dphi iv w = some (SignalProcessor.decodeBits dphi iv w) := by
  have hidx : ∀ s, s < (iv.2 - iv.1 + 1) / w → ∀ k, k < w → iv.1 + s * w + k ≤ iv.2 := by
    intro s hs k hk
    have h2 := (Nat.le_div_iff_mul_le (show 0 < w from hw)).mp (Nat.succ_le_of_lt hs)
    have h1 : s * w + w ≤ iv.2 - iv.1 + 1 := by
      calc s * w + w = (s + 1) * w := by ring
        _ ≤ iv.2 - iv.1 + 1 := h2
    revert h1
    generalize s * w = m
    intro h1
    omega
  refine ⟨hidx, ?_⟩
  have hlt : ∀ s, s < (iv.2 - iv.1 + 1) / w → ∀ k, k < w → iv.1 + s * w + k < dphi.length :=
    fun s hs k hk => lt_of_le_of_lt (hidx s hs k hk) hend
  rw [decodeBitsChecked, bitsCheckedGo_eq dphi iv.1 w _ hlt]
  rfl

theorem C10_witness :
    decodeBitsChecked [(2 : ℝ), -3] (0, 1) 1 =
      some (SignalProcessor.decodeBits [(2 : ℝ), -3] (0, 1) 1) ∧
    SignalProcessor.decodeBits [(2 : ℝ), -3] (0, 1) 1 = ['1', '0'] := by
  refine ⟨(C10_decodeBits_inBounds [(2 : ℝ), -3] (0, 1) 1
    (by norm_num) (by norm_num) (by norm_num)).2, ?_⟩
  norm_num [SignalProcessor.decodeBits, List.range_succ, List.getD]

lemma jsSlice_exact (l₁ l₂ l₃ : List Char) (a b : Nat)
    (h1 : l₁.length = a) (h2 : l₂.length = b - a) :
    jsSlice (l₁ ++ (l₂ ++ l₃)) a b = l₂ := by
  unfold jsSlice
  rw [List.drop_left' h1, List.take_left' h2]

lemma jsSlice_last (l₁ l₂ : List Char) (a b : Nat)
    (h1 : l₁.length = a) (h2 : l₂.length ≤ b - a) :
    jsSlice (l₁ ++ l₂) a b = l₂ := by
  unfold jsSlice
  rw [List.drop_left' h1, List.take_of_length_le h2]

/-- C4: parsing a synthetic frame built by concatenating preamble, sync,
device-id, command and battery fields of the protocol widths recovers the
fields: the sync output is the sync bits verbatim, the device id is the
hex rendering of the id bits (the 20 bits 0...01 give 0x00001), command
bits 001 give OPEN, battery bit 1 gives OK, and the unknown command code
111 yields UNKNOWN without failing. -/
theorem C4_parse_roundTrip (pre sync did cmd bat frame : List Char)
    (hpre : pre.length = PREAMBLE_LENGTH) (hsync : sync.length = SYNC_WORD_LENGTH)
    (hid : did.length = DEVICE_ID_LENGTH) (hcmd : cmd.length = COMMAND_LENGTH)
    (hbat : bat.length = BATTERY_LENGTH)
    (hframe : frame = pre ++ (sync ++ (did ++ (cmd ++ bat)))) :
    (FrameParser.parse frame).sync = sync ∧
    (FrameParser.parse frame).deviceId = '0' :: 'x' :: FrameParser.binToHex did ∧
    (did = "00000000000000000001".toList →
      (FrameParser.parse frame).deviceId = "0x00001".toList) ∧
    (cmd = "001".toList → (FrameParser.parse frame).command = "OPEN") ∧
    (bat = "1".toList → (FrameParser.parse frame).battery = "OK") ∧
    (cmd = "111".toList → (FrameParser.parse frame).command = "UNKNOWN") := by
  subst hframe
  simp only [PREAMBLE_LENGTH, SYNC_WORD_LENGTH, DEVICE_ID_LENGTH, COMMAND_LENGTH,
    BATTERY_LENGTH] at hpre hsync hid hcmd hbat
  have e2 : pre ++ (sync ++ (did ++ (cmd ++ bat))) =
      (pre ++ sync) ++ (did ++ (cmd ++ bat)) := by
    simp [List.append_assoc]
  have e3 : pre ++ (sync ++ (did ++ (cmd ++ bat))) =
      ((pre ++ sync) ++ did) ++ (cmd ++ bat) := by
    simp [List.append_assoc]
  have e4 : pre ++ (sync ++ (did ++ (cmd ++ bat))) =
      (((pre ++ sync) ++ did) ++ cmd) ++ bat := by
    simp [List.append_assoc]
  have hsSlice : jsSlice (pre ++ (sync ++ (did ++ (cmd ++ bat)))) 24 40 = sync :=
    jsSlice_exact pre sync _ 24 40 hpre (by omega)
  have hiSlice : jsSlice (pre ++ (sync ++ (did ++ (cmd ++ bat)))) 40 60 = did := by
    rw [e2]
    exact jsSlice_exact (pre ++ sync) did _ 40 60 (by simp [hpre, hsync]) (by omega)
  have hcSlice : jsSlice (pre ++ (sync ++ (did ++ (cmd ++ bat)))) 60 63 = cmd := by
    rw [e3]
    exact jsSlice_exact ((pre ++ sync) ++ did) cmd _ 60 63
      (by simp [hpre, hsync, hid]) (by omega)
  have hbSlice : jsSlice (pre ++ (sync ++ (did ++ (cmd ++ bat)))) 63 64 = bat := by
    rw [e4]
    exact jsSlice_last ((((pre ++ sync) ++ did) ++ cmd)) bat 63 64
      (by simp [hpre, hsync, hid, hcmd]) (by omega)
  simp only [FrameParser.parse, PREAMBLE_LENGTH, SYNC_WORD_LENGTH, DEVICE_ID_LENGTH,
    COMMAND_LENGTH, BATTERY_LENGTH]
  norm_num [hsSlice, hiSlice, hcSlice, hbSlice]
  refine ⟨?_, ?_, ?_, ?_⟩
  · rintro rfl; decide
  · rintro rfl; decide
  · rintro rfl; decide
  · rintro rfl; decide

theorem C4_witness :
    (FrameParser.parse (List.replicate 24 '0' ++ (SYNC_WORD ++
      ("00000000000000000001".toList ++ ("001".toList ++ "1".toList))))).sync = SYNC_WORD ∧
    (FrameParser.parse (List.replicate 24 '0' ++ (SYNC_WORD ++
      ("00000000000000000001".toList ++ ("001".toList ++ "1".toList))))).deviceId =
      "0x00001".toList ∧
    (FrameParser.parse (List.replicate 24 '0' ++ (SYNC_WORD ++
      ("00000000000000000001".toList ++ ("001".toList ++ "1".toList))))).command = "OPEN" ∧
    (FrameParser.parse (List.replicate 24 '0' ++ (SYNC_WORD ++
      ("00000000000000000001".toList ++ ("001".toList ++ "1".toList))))).battery = "OK" := by
  have h := C4_parse_roundTrip (List.replicate 24 '0') SYNC_WORD
    "00000000000000000001".toList "001".toList "1".toList
    (List.replicate 24 '0' ++ (SYNC_WORD ++
      ("00000000000000000001".toList ++ ("001".toList ++ "1".toList))))
    (by decide) (by decide) (by decide) (by decide) (by decide) rfl
  exact ⟨h.1, h.2.2.1 rfl, h.2.2.2.1 rfl, h.2.2.2.2.1 rfl⟩

/-- C9: on any bit string of the protocol length the parser is total and
stateless: the sync field is returned verbatim (even when it differs from
the sync constant), a command or battery code outside the lookup tables
resolves to UNKNOWN, and dropping sync-mismatched frames happens in the
caller (processFile keeps a parsed frame exactly when its sync equals the
constant). -/
theorem C9_parse_neverFails (frame : List Char) (hlen : frame.length = 64) :
    (FrameParser.parse frame).sync =
      jsSlice frame PREAMBLE_LENGTH (PREAMBLE_LENGTH + SYNC_WORD_LENGTH) ∧
    (COMMANDS (jsSlice frame (PREAMBLE_LENGTH + SYNC_WORD_LENGTH + DEVICE_ID_LENGTH)
        (PREAMBLE_LENGTH + SYNC_WORD_LENGTH + DEVICE_ID_LENGTH + COMMAND_LENGTH)) = none →
      (FrameParser.parse frame).command = "UNKNOWN") ∧
    (BATTERY_STATUS (jsSlice frame
        (PREAMBLE_LENGTH + SYNC_WORD_LENGTH + DEVICE_ID_LENGTH + COMMAND_LENGTH)
        (PREAMBLE_LENGTH + SYNC_WORD_LENGTH + DEVICE_ID_LENGTH + COMMAND_LENGTH +
          BATTERY_LENGTH)) = none →
      (FrameParser.parse frame).battery = "UNKNOWN") ∧
    processFileFrames [frame] =
      (if (FrameParser.parse frame).sync = SYNC_WORD
        then [FrameParser.parse frame] else []) := by
  refine ⟨rfl, ?_, ?_, ?_⟩
  · intro h
    simp [FrameParser.parse, h]
  · intro h
    simp [FrameParser.parse, h]
  · simp only [processFileFrames, List.map_cons, List.map_nil]
    by_cases h : (FrameParser.parse frame).sync = SYNC_WORD
    · simp [List.filter_cons, h]
    · simp [List.filter_cons, h]

theorem C9_witness :
    (FrameParser.parse (List.replicate 64 '1')).sync = List.replicate 16 '1' ∧
    (FrameParser.parse (List.replicate 64 '1')).command = "UNKNOWN" ∧
    processFileFrames [List.replicate 64 '1'] = [] := by
  have h := C9_parse_neverFails (List.replicate 64 '1') (by decide)
  refine ⟨h.1.trans (by decide), h.2.1 (by decide), ?_⟩
  rw [h.2.2.2, if_neg (by decide)]

lemma normalizeIQ_eq (p : List Nat × List Nat) :
    normalizeIQ p.1 p.2 = SignalProcessor.normalize p := rfl

lemma computePower_eq (p : List Int × List Int) :
    computePower p.1 p.2 = SignalProcessor.calculatePower p := rfl

lemma detectSignal_eq : detectSignal = SignalProcessor.aboveThreshold := rfl

lemma computePhases_eq (p : List Int × List Int) :
    computePhases p.1 p.2 = SignalProcessor.computePhases p := rfl

lemma computePhaseDiff_eq : computePhaseDiff = SignalProcessor.computeDiffs := rfl

/-- The boolean-flag scan and the nullable-start scan are the same
function: `inSig = true` with start `s` corresponds to the `some s` state
(under the invariant s < i), `inSig = false` to `none`. -/
lemma findSignalIntervalsGo_eq (minLen : Nat) :
    ∀ (l : List Bool) (i : Nat),
      (∀ s, s < i → findSignalIntervalsGo minLen l i true s =
        SignalProcessor.findIntervalsGo minLen l i (some s)) ∧
      (∀ s, findSignalIntervalsGo minLen l i false s =
        SignalProcessor.findIntervalsGo minLen l i none) := by
  intro l
  induction l with
  | nil =>
    intro i
    constructor
    · intro s hsi
      have harith : (i - 1) - s + 1 = i - s := by omega
      simp [findSignalIntervalsGo, SignalProcessor.findIntervalsGo, harith]
    · intro s
      simp [findSignalIntervalsGo, SignalProcessor.findIntervalsGo]
  | cons f rest ih =>
    intro i
    obtain ⟨ihT, ihF⟩ := ih (i + 1)
    constructor
    · intro s hsi
      cases f with
      | true =>
        simp only [findSignalIntervalsGo, SignalProcessor.findIntervalsGo]
        simp only [Bool.not_true, Bool.false_and, Bool.and_false, if_false,
          Bool.true_and, Bool.not_false]
        simpa using ihT s (by omega)
      | false =>
        have harith : (i - 1) - s + 1 = i - s := by omega
        simp only [findSignalIntervalsGo, SignalProcessor.findIntervalsGo]
        simp only [Bool.not_true, Bool.false_and, Bool.and_false, if_false,
          Bool.true_and, Bool.not_false, Bool.and_true, if_true]
        rw [harith, ihF s]
        simp
    · intro s
      cases f with
      | true =>
        simp only [findSignalIntervalsGo, SignalProcessor.findIntervalsGo]
        simp only [Bool.not_false, Bool.true_and, Bool.false_and, if_true]
        simpa using ihT i (by omega)
      | false =>
        simp only [findSignalIntervalsGo, SignalProcessor.findIntervalsGo]
        simp only [Bool.not_false, Bool.true_and, Bool.false_and, Bool.and_false,
          if_false]
        simpa using ihF s

lemma findSignalIntervals_eq (isSig : List Bool) (minLen : Nat) :
    findSignalIntervals isSig minLen = SignalProcessor.findIntervals isSig minLen :=
  (findSignalIntervalsGo_eq minLen isSig 0).2 0

/-- Joining the 0/1 digits pushed by `decodeFSK` gives exactly the
character string pushed by `decodeBits`. -/
lemma decodeFSK_map_digitChar (dphi : List ℝ) (w : Nat) (iv : Nat × Nat) :
    (decodeFSK dphi iv.1 iv.2 w).map Nat.digitChar =
      SignalProcessor.decodeBits dphi iv w := by
  simp only [decodeFSK, SignalProcessor.decodeBits, List.map_map]
  congr 1
  funext s
  simp only [Function.comp]
  split <;> rfl

/-- C3: on every input buffer and identical configuration the two
extraction pipelines return the same list of unique bit strings, in the
same order: the named-constants pipeline and the literal-64 pipeline are
extensionally equal. -/
theorem C3_pipelines_agree (buffer : List Nat) (threshold : Int)
    (minLen samplesPerBit : Nat) :
    extractUnique64BitSequences buffer threshold minLen samplesPerBit =
      SignalProcessor.extractSequences buffer threshold minLen samplesPerBit := by
  simp only [extractUnique64BitSequences, SignalProcessor.extractSequences,
    readCU8File_eq_readIq, normalizeIQ_eq, computePower_eq, detectSignal_eq,
    findSignalIntervals_eq, computePhases_eq, computePhaseDiff_eq,
    decodeFSK_map_digitChar, PREAMBLE_LENGTH, SYNC_WORD_LENGTH, DEVICE_ID_LENGTH,
    COMMAND_LENGTH, BATTERY_LENGTH]

lemma aboveThreshold_all_false (power : List Int) (threshold : Int)
    (h : ∀ p ∈ power, p ≤ threshold) :
    ∀ f ∈ SignalProcessor.aboveThreshold power threshold, f = false := by
  intro f hf
  obtain ⟨v, hv, rfl⟩ := List.mem_map.mp hf
  simpa using h v hv

lemma findIntervalsGo_none_all_false (minLen : Nat) :
    ∀ (l : List Bool) (i : Nat), (∀ f ∈ l, f = false) →
      SignalProcessor.findIntervalsGo minLen l i none = [] := by
  intro l
  induction l with
  | nil => intro i _; simp [SignalProcessor.findIntervalsGo]
  | cons f rest ih =>
    intro i h
    have hf : f = false := h f (by simp)
    subst hf
    simp only [SignalProcessor.findIntervalsGo, Bool.false_eq_true, if_false]
    exact ih (i + 1) (fun g hg => h g (by simp [hg]))

/-- C8: when no interval meets the minimum length the extraction pipeline
returns the empty list (totally, no error); in particular it does so when
every power value is at or below the threshold. -/
theorem C8_noSignal_empty (buffer : List Nat) (threshold : Int)
    (minLen samplesPerBit : Nat) :
    (SignalProcessor.findIntervals
        (SignalProcessor.aboveThreshold
          (SignalProcessor.calculatePower
            (SignalProcessor.normalize (SignalProcessor.readIq buffer)))
          threshold) minLen = [] →
      SignalProcessor.extractSequences buffer threshold minLen samplesPerBit = []) ∧
    ((∀ p ∈ SignalProcessor.calculatePower
        (SignalProcessor.normalize (SignalProcessor.readIq buffer)), p ≤ threshold) →
      SignalProcessor.extractSequences buffer threshold minLen samplesPerBit = []) := by
  have hbase : SignalProcessor.findIntervals
      (SignalProcessor.aboveThreshold
        (SignalProcessor.calculatePower
          (SignalProcessor.normalize (SignalProcessor.readIq buffer)))
        threshold) minLen = [] →
      SignalProcessor.extractSequences buffer threshold minLen samplesPerBit = [] := by
    intro h
    simp only [SignalProcessor.extractSequences]
    rw [if_pos h]
  refine ⟨hbase, ?_⟩
  intro h
  apply hbase
  exact findIntervalsGo_none_all_false minLen _ 0
    (aboveThreshold_all_false _ threshold h)

theorem C8_witness :
    (∀ p ∈ SignalProcessor.calculatePower
      (SignalProcessor.normalize (SignalProcessor.readIq [128, 128, 128, 128])),
      p ≤ (5 : Int)) ∧
    SignalProcessor.extractSequences [128, 128, 128, 128] 5 35000 635 = [] := by
  refine ⟨by decide, (C8_noSignal_empty [128, 128, 128, 128] 5 35000 635).2 (by decide)⟩

theorem C7_witness :
    [5, 6, 7, 8].length = 2 * 2 ∧
    (SignalProcessor.readIq [5, 6, 7, 8]).1.length = 2 ∧
    (SignalProcessor.readIq [5, 6, 7, 8]).2.length = 2 ∧
    (SignalProcessor.readIq [5, 6, 7, 8]).1.getD 1 0 = 7 ∧
    (SignalProcessor.readIq [5, 6, 7, 8]).2.getD 1 0 = 8 := by
  have h := C7_readIq_even [5, 6, 7, 8] 2 (by decide)
  refine ⟨by decide, h.1, h.2.1, ?_, ?_⟩
  · exact ((h.2.2 1 (by decide)).1).trans (by decide)
  · exact ((h.2.2 1 (by decide)).2).trans (by decide)
